import Mathlib

/-!
Verification development for the sliding-window trace engine:
the trace generator and fps duration model
(src/remotion/logic/slidingWindow/trace.ts), the explainer duration /
timeline assembly (src/remotion/scenes/SlidingWindow/Explainer.tsx), and
the playback state projector (the SlidingWindowScene component).

Strings are embedded as lists of characters.  JavaScript numbers that are
always integral non-negative quantities in reachable states (timestamps,
indices) are embedded as naturals; quantities that the source compares
with possibly negative arithmetic (window lengths, frame differences,
fps scale factors) are embedded as integers or rationals, with
JavaScript Math.round modelled exactly (round half toward positive
infinity).
-/

namespace SlidingWindow

/-- JavaScript Math.round on an exact rational: round half up. -/
def jsRound (q : ℚ) : ℤ := ⌊q + 1 / 2⌋

/-- The per-step duration table (the five fields of
TraceConfig.durations in trace.ts). -/
structure Durations where
  moveRight : ℕ
  add : ℕ
  duplicate : ℕ
  moveLeftEach : ℕ
  updateBest : ℕ
  deriving DecidableEq

/-- defaultDurations from trace.ts. -/
def defaultDurations : Durations := ⟨12, 6, 10, 8, 8⟩

/-- baseFps from trace.ts. -/
def baseFps : ℚ := 30

/-- durationsForFps from trace.ts: scale each default duration by
fps / base and round, with a floor of 1 frame. -/
def durationsForFps (fps : ℚ) (base : ℚ) : Durations :=
  let scale := fps / base
  let rnd := fun (n : ℚ) => (max 1 (jsRound (n * scale))).toNat
  ⟨rnd 12, rnd 6, rnd 10, rnd 8, rnd 8⟩

/-- The step-event sum type (SlidingWindowStep in trace.ts), each
constructor carrying its timestamp `t` in frames. -/
inductive Step where
  | moveRight (t : ℕ) (index : ℕ) (char : Char)
  | addToSet (t : ℕ) (char : Char)
  | foundDuplicate (t : ℕ) (char : Char) (atIndex : ℕ)
  | moveLeftUntil (t : ℕ) (fromIndex : ℕ) (stopAtIndex : ℕ)
  | updateBest (t : ℕ) (start : ℕ) (stop : ℕ)
  deriving DecidableEq

/-- The timestamp of a step event. -/
def Step.time : Step → ℕ
  | .moveRight t _ _ => t
  | .addToSet t _ => t
  | .foundDuplicate t _ _ => t
  | .moveLeftUntil t _ _ => t
  | .updateBest t _ _ => t

/-- The duplicate test of the loop body in traceLongestSubstring:
`prevIndex !== undefined && prevIndex >= left`, returning the previous
index when the test passes. -/
def dupCheck (seen : Char → Option ℕ) (c : Char) (left : ℕ) : Option ℕ :=
  match seen c with
  | some p => if left ≤ p then some p else none
  | none => none

/-- The events of one supplementary iteration. -/
structure IterOut where
  evs : List Step
  t : ℕ
  left : ℕ
  best : ℤ
  deriving DecidableEq

/-- One iteration of the `for right` loop of traceLongestSubstring:
emit moveRight, then on a duplicate emit foundDuplicate and
moveLeftUntil and advance the left pointer, then emit addToSet, then
emit updateBest when the current window beats the best so far.
Returns the emitted events together with the updated clock, left
pointer and best length. -/
def iterOut (D : Durations) (c : Char) (right t left : ℕ) (best : ℤ)
    (seen : Char → Option ℕ) : IterOut :=
  match dupCheck seen c left with
  | some p =>
      let t1 := t + D.moveRight
      let t2 := t1 + D.duplicate
      let nl := p + 1
      let t3 := t2 + max 1 (nl - left) * D.moveLeftEach
      let t4 := t3 + D.add
      let len : ℤ := (right : ℤ) - nl + 1
      if best < len then
        ⟨[.moveRight t right c, .foundDuplicate t1 c right,
          .moveLeftUntil t2 left nl, .addToSet t3 c,
          .updateBest t4 nl right], t4 + D.updateBest, nl, len⟩
      else
        ⟨[.moveRight t right c, .foundDuplicate t1 c right,
          .moveLeftUntil t2 left nl, .addToSet t3 c], t4, nl, best⟩
  | none =>
      let t1 := t + D.moveRight
      let t2 := t1 + D.add
      let len : ℤ := (right : ℤ) - left + 1
      if best < len then
        ⟨[.moveRight t right c, .addToSet t1 c,
          .updateBest t2 left right], t2 + D.updateBest, left, len⟩
      else
        ⟨[.moveRight t right c, .addToSet t1 c], t2, left, best⟩

/-- The main loop of traceLongestSubstring, recursing over the
remaining characters; `right` is the index of the head of `cs` in the
full input, and `seen` is the lastSeen map.  Returns the emitted steps
and the final clock value. -/
def traceGo (D : Durations) :
    List Char → ℕ → ℕ → ℕ → ℤ → (Char → Option ℕ) → List Step × ℕ
  | [], _, t, _, _, _ => ([], t)
  | c :: cs, right, t, left, best, seen =>
      let o := iterOut D c right t left best seen
      let r := traceGo D cs (right + 1) o.t o.left o.best
        (fun x => if x = c then some right else seen x)
      (o.evs ++ r.1, r.2)

/-- TraceConfig with the per-field defaults already merged in
(the source spreads cfg.durations over defaultDurations). -/
structure TraceConfig where
  durations : Durations
  fps : ℚ
  tailSeconds : ℚ
  deriving DecidableEq

/-- The all-default configuration: default durations, fps 30, one
second of tail. -/
def defaultConfig : TraceConfig := ⟨defaultDurations, 30, 1⟩

/-- TraceResult from trace.ts: steps plus total duration in frames. -/
structure TraceResult where
  steps : List Step
  duration : ℤ
  deriving DecidableEq

/-- traceLongestSubstring from trace.ts: run the sliding-window scan
from the initial state and append the tail buffer
`max(1, round(tailSeconds * fps))` to the final clock. -/
def traceLongestSubstring (s : List Char) (cfg : TraceConfig) : TraceResult :=
  let o := traceGo cfg.durations s 0 0 0 0 (fun _ => none)
  ⟨o.1, (o.2 : ℤ) + max 1 (jsRound (cfg.tailSeconds * cfg.fps))⟩

/-- A step event stripped of its timestamp, used to state claims about
the order and payloads of emitted events. -/
inductive EvKind where
  | moveRight (index : ℕ) (char : Char)
  | addToSet (char : Char)
  | foundDuplicate (char : Char) (atIndex : ℕ)
  | moveLeftUntil (fromIndex : ℕ) (stopAtIndex : ℕ)
  | updateBest (start : ℕ) (stop : ℕ)
  deriving DecidableEq

/-- Forget the timestamp of a step event. -/
def Step.kind : Step → EvKind
  | .moveRight _ i c => .moveRight i c
  | .addToSet _ c => .addToSet c
  | .foundDuplicate _ c i => .foundDuplicate c i
  | .moveLeftUntil _ a b => .moveLeftUntil a b
  | .updateBest _ a b => .updateBest a b

/-- Folding-step for the best length derived from a step list: the last
updateBest event determines `stop - start + 1`, other events leave the
accumulator unchanged (the updateBest arm of the projector fold). -/
def bestF (acc : ℤ) : Step → ℤ
  | .updateBest _ a b => (b : ℤ) - (a : ℤ) + 1
  | _ => acc

/-- The best length reconstructed from a full trace: length of the last
updateBest window, or 0 when no updateBest event exists. -/
def foldBest (steps : List Step) : ℤ := steps.foldl bestF 0

/-- Folding-step for the left pointer derived from a step list: the
last moveLeftUntil event determines it, other events leave it
unchanged (the moveLeftUntil arm of the projector fold). -/
def leftF (acc : ℕ) : Step → ℕ
  | .moveLeftUntil _ _ stop => stop
  | _ => acc

/-- The state the SlidingWindowScene component derives by folding
events (interface DerivedState in the scene source). -/
structure DerivedState where
  left : ℕ
  right : ℤ
  best : ℤ
  deriving DecidableEq

/-- One arm of the scene's derivation fold: moveRight sets the right
pointer, moveLeftUntil sets the left pointer, updateBest sets the best
length; foundDuplicate and addToSet change nothing. -/
def applyStep (d : DerivedState) : Step → DerivedState
  | .moveRight _ i _ => ⟨d.left, (i : ℤ), d.best⟩
  | .moveLeftUntil _ _ stop => ⟨stop, d.right, d.best⟩
  | .updateBest _ a b => ⟨d.left, d.right, (b : ℤ) - (a : ℤ) + 1⟩
  | _ => d

/-- The selected step index of the projector in SlidingWindowScene:
the scan-with-break over the steps leaves idx at the last position
whose timestamp is at most the frame (-1 when there is none), and the
component clamps it below by 0. -/
def stepIndexFor (steps : List Step) (frame : ℕ) : ℕ :=
  (max 0 (((steps.takeWhile (fun st => st.time ≤ frame)).length : ℤ) - 1)).toNat

/-- The projector of SlidingWindowScene at a non-negative frame: the
derived state folds the steps up to the selected index inclusive,
starting from left 0, right -1, best 0.  The source reads
`trace.steps[stepIndex]` unconditionally, so when the clamped index
falls outside the list (an empty trace) the access yields undefined
and the fold throws; that failure is modelled as `none`. -/
def deriveState (steps : List Step) (frame : ℕ) : Option DerivedState :=
  if stepIndexFor steps frame < steps.length then
    some ((steps.take (stepIndexFor steps frame + 1)).foldl applyStep ⟨0, -1, 0⟩)
  else none

/-- The frame the scene actually projects at: the component clamps
`absFrame - frameOffset` to be non-negative before selecting events. -/
def sceneFrame (absFrame frameOffset : ℤ) : ℕ :=
  (max 0 (absFrame - frameOffset)).toNat

/-- The scene's projection of the trace of `s` (default config) at an
absolute frame and offset, including the clamp of negative frames. -/
def sceneDerive (s : List Char) (absFrame frameOffset : ℤ) :
    Option DerivedState :=
  deriveState (traceLongestSubstring s defaultConfig).steps
    (sceneFrame absFrame frameOffset)

/-- The while-loop of lengthOfLongestSubstring in Explainer.tsx:
while the current character is in the set, delete the character at the
left pointer and advance it.  The loop in the source is unbounded; the
fuel here is an upper bound on the number of iterations, shown
sufficient (the loop is always exited before the fuel runs out) in the
invariant proofs below. -/
def shrink (s : List Char) (c : Char) :
    ℕ → Finset Char → ℕ → Finset Char × ℕ
  | 0, set, left => (set, left)
  | fuel + 1, set, left =>
      if c ∈ set then
        shrink s c fuel
          (match s.get? left with
           | some ch => set.erase ch
           | none => set) (left + 1)
      else (set, left)

/-- The main loop of lengthOfLongestSubstring: for each character,
shrink the window past any duplicate, insert the character, and take
the max of the best length with the current window length. -/
def lolsGo (s : List Char) :
    List Char → ℕ → Finset Char → ℕ → ℤ → ℤ
  | [], _, _, _, best => best
  | c :: cs, right, set, left, best =>
      let sl := shrink s c s.length set left
      lolsGo s cs (right + 1) (insert c sl.1) sl.2
        (max best ((right : ℤ) - (sl.2 : ℤ) + 1))

/-- lengthOfLongestSubstring from Explainer.tsx: the direct set-based
sliding-window implementation. -/
def lengthOfLongestSubstring (s : List Char) : ℤ :=
  lolsGo s s 0 ∅ 0 0

/-- computeExplainerDuration from Explainer.tsx: intro 120, outro 120,
overlap 3 per transition, with `examples.length + 1` transitions when
there is at least one example and a single transition otherwise. -/
def computeExplainerDuration (examples : List (List Char)) : ℤ :=
  let intro : ℤ := 120
  let overlap : ℤ := 3
  let outro : ℤ := 120
  let examplesDur :=
    (examples.map
      (fun s => (traceLongestSubstring s defaultConfig).duration)).sum
  let transitions : ℤ :=
    if 0 < examples.length then (examples.length : ℤ) + 1 else 1
  intro + examplesDur + outro - overlap * transitions

/-- The cursor advance of the assembler in SlidingWindowExplainer: each
example segment starts at `max 0 (cursor - 3)` and the cursor moves to
that start plus the segment's duration. -/
def cursorStep (cursor d : ℤ) : ℤ := max 0 (cursor - 3) + d

/-- The assembler's cursor after laying out the intro (120 frames from
frame 0) followed by all example segments. -/
def layoutCursor (durs : List ℤ) : ℤ := durs.foldl cursorStep 120

/-- The outro segment's start frame as laid out by the assembler. -/
def outroStart (examples : List (List Char)) : ℤ :=
  max 0 (layoutCursor (examples.map
    (fun s => (traceLongestSubstring s defaultConfig).duration)) - 3)

/-- The outro segment's start frame plus its 120-frame duration: the
total timeline extent of the assembled explainer. -/
def assembledTotal (examples : List (List Char)) : ℤ :=
  outroStart examples + 120

/-- The duration-scaling formula in the words of the specification:
each baseline entry `v` maps to `max(1, round(v * targetFps / 30))`. -/
def specScaleDurations (targetFps : ℚ) : Durations :=
  ⟨(max 1 (jsRound (12 * targetFps / 30))).toNat,
   (max 1 (jsRound (6 * targetFps / 30))).toNat,
   (max 1 (jsRound (10 * targetFps / 30))).toNat,
   (max 1 (jsRound (8 * targetFps / 30))).toNat,
   (max 1 (jsRound (8 * targetFps / 30))).toNat⟩

/-- The input string of the worked scenario. -/
def abcabcbb : List Char := ['a', 'b', 'c', 'a', 'b', 'c', 'b', 'b']

/-- C1: the claimed 11-event opening of the trace of "abcabcbb" is not
what the generator emits: the generator also emits updateBest(0,0) and
updateBest(0,1) right after the first two addToSet events, so already
the third event differs. -/
theorem trace_abcabcbb_claimed_front_false :
    ((traceLongestSubstring abcabcbb defaultConfig).steps.take 11).map
        Step.kind ≠
      [.moveRight 0 'a', .addToSet 'a', .moveRight 1 'b', .addToSet 'b',
       .moveRight 2 'c', .addToSet 'c', .updateBest 0 2, .moveRight 3 'a',
       .foundDuplicate 'a' 3, .moveLeftUntil 0 1, .addToSet 'a'] := by
  decide

/-- C1 (amended): the trace of "abcabcbb" with the baseline duration
table opens with moveRight(0,a), addToSet(a), updateBest(0,0),
moveRight(1,b), addToSet(b), updateBest(0,1), moveRight(2,c),
addToSet(c), updateBest(0,2), moveRight(3,a), foundDuplicate(a,3),
moveLeftUntil(0,1), addToSet(a), and folding all updateBest events of
the full trace yields a final best length of 3. -/
theorem trace_abcabcbb_front_actual :
    ((traceLongestSubstring abcabcbb defaultConfig).steps.take 13).map
        Step.kind =
      [.moveRight 0 'a', .addToSet 'a', .updateBest 0 0,
       .moveRight 1 'b', .addToSet 'b', .updateBest 0 1,
       .moveRight 2 'c', .addToSet 'c', .updateBest 0 2,
       .moveRight 3 'a', .foundDuplicate 'a' 3, .moveLeftUntil 0 1,
       .addToSet 'a'] ∧
    foldBest (traceLongestSubstring abcabcbb defaultConfig).steps = 3 := by
  constructor <;> decide

/-- C4: for positive target fps, durationsForFps at the 30 fps baseline
realises exactly the specified formula v ↦ max(1, round(v * fps / 30))
on each of the five baseline entries, and at fps 30 it returns exactly
the baseline table. -/
theorem durationsForFps_spec (fps : ℚ) (h : 0 < fps) :
    durationsForFps fps 30 = specScaleDurations fps ∧
      durationsForFps 30 30 = defaultDurations := by
  constructor
  · simp [durationsForFps, specScaleDurations, mul_div_assoc]
  · simp only [durationsForFps, defaultDurations, Durations.mk.injEq]
    norm_num [jsRound]
    decide

/-- Witness for C4 at fps 60. -/
theorem durationsForFps_spec_witness :
    durationsForFps 60 30 = specScaleDurations 60 ∧
      durationsForFps 30 30 = defaultDurations :=
  durationsForFps_spec 60 (by norm_num)

/-- C7: on the empty input the trace has no events, and the scene's
fold nevertheless reads the first step of the empty list (the source
accesses trace.steps[0], which is undefined, and then reads its type
tag), so the projection crashes -- modelled as none -- instead of
producing the documented default state. -/
theorem derive_empty_trace_crashes :
    ∀ frame : ℕ,
      deriveState (traceLongestSubstring [] defaultConfig).steps frame =
        none :=
  fun _ => rfl

/-- Helper: a rational that is at most 0 rounds to at most 0, so the
1-frame floor wins. -/
theorem max_one_jsRound_nonpos {q : ℚ} (hq : q ≤ 0) :
    max 1 (jsRound q) = 1 := by
  have h : jsRound q ≤ 0 := by
    have : (q + 1 / 2 : ℚ) ≤ 1 / 2 := by linarith
    calc ⌊q + 1 / 2⌋ ≤ ⌊(1 / 2 : ℚ)⌋ := Int.floor_le_floor this
    _ = 0 := by norm_num
  omega

/-- C9 (counterexample): at target fps 0 the duration-scaling function
does not reject its argument; it returns the duration table with every
entry clamped to 1. -/
theorem durationsForFps_zero_returns_table :
    durationsForFps 0 30 = ⟨1, 1, 1, 1, 1⟩ := by
  simp only [durationsForFps, Durations.mk.injEq]
  norm_num [jsRound]

/-- C9 (amended): for every target fps at most 0, durationsForFps is
total and returns the all-ones duration table (each entry is
max(1, round(v * fps / 30)) with a non-positive rounded value). -/
theorem durationsForFps_nonpos_all_ones (fps : ℚ) (h : fps ≤ 0) :
    durationsForFps fps 30 = ⟨1, 1, 1, 1, 1⟩ := by
  have key : ∀ n : ℚ, 0 ≤ n → (max 1 (jsRound (n * (fps / 30)))).toNat = 1 := by
    intro n hn
    have hq : n * (fps / 30) ≤ 0 :=
      mul_nonpos_of_nonneg_of_nonpos hn (by linarith)
    rw [max_one_jsRound_nonpos hq]
    rfl
  show Durations.mk _ _ _ _ _ = _
  simp only [durationsForFps]
  rw [key 12 (by norm_num), key 6 (by norm_num), key 10 (by norm_num),
    key 8 (by norm_num)]

/-- Witness for C9 (amended) at fps -1. -/
theorem durationsForFps_nonpos_witness :
    durationsForFps (-1) 30 = ⟨1, 1, 1, 1, 1⟩ :=
  durationsForFps_nonpos_all_ones (-1) (by norm_num)

/-- C10 (counterexample): queried with absolute frame 0 and offset 5
(an effective frame of -5), the scene projector returns the ordinary
projected state of frame 0 -- a value, not an error. -/
theorem sceneDerive_negative_frame_value :
    sceneDerive ['a', 'b', 'c'] 0 5 = some ⟨0, 0, 0⟩ ∧
      sceneDerive ['a', 'b', 'c'] 0 5 =
        deriveState
          (traceLongestSubstring ['a', 'b', 'c'] defaultConfig).steps 0 := by
  constructor <;> decide

/-- C10 (amended): whenever the effective frame absFrame - frameOffset
is non-positive, the scene silently clamps it to 0 and returns the
projection at frame 0; it never returns an error value. -/
theorem sceneDerive_clamps_nonpositive (s : List Char) (a o : ℤ)
    (h : a - o ≤ 0) :
    sceneDerive s a o =
      deriveState (traceLongestSubstring s defaultConfig).steps 0 := by
  unfold sceneDerive sceneFrame
  rw [max_eq_left h]
  rfl

/-- Witness for C10 (amended). -/
theorem sceneDerive_clamps_nonpositive_witness :
    sceneDerive ['a'] 0 5 =
      deriveState (traceLongestSubstring ['a'] defaultConfig).steps 0 :=
  sceneDerive_clamps_nonpositive ['a'] 0 5 (by norm_num)

/-- Time chaining: every event of the list is stamped no earlier than
the running clock before it, reading the list left to right from the
given clock value. -/
def TimeMono : ℕ → List Step → Prop
  | _, [] => True
  | a, st :: rest => a ≤ st.time ∧ TimeMono st.time rest

/-- The timestamp of the last event of the list, or the given clock
value for the empty list. -/
def lastTime (a : ℕ) (l : List Step) : ℕ :=
  l.foldl (fun _ st => st.time) a

theorem lastTime_nil (a : ℕ) : lastTime a [] = a := rfl

theorem lastTime_cons (a : ℕ) (st : Step) (l : List Step) :
    lastTime a (st :: l) = lastTime st.time l := rfl

theorem timeMono_weaken {a b : ℕ} {l : List Step} (hab : a ≤ b)
    (h : TimeMono b l) : TimeMono a l := by
  cases l with
  | nil => trivial
  | cons st rest => exact ⟨le_trans hab h.1, h.2⟩

theorem timeMono_append {l₁ l₂ : List Step} :
    ∀ {a : ℕ}, TimeMono a l₁ → TimeMono (lastTime a l₁) l₂ →
      TimeMono a (l₁ ++ l₂) := by
  induction l₁ with
  | nil => intro a _ h₂; exact h₂
  | cons st rest ih =>
      intro a h₁ h₂
      exact ⟨h₁.1, ih h₁.2 (by rwa [lastTime_cons] at h₂)⟩

theorem timeMono_chain {l : List Step} :
    ∀ {a : ℕ}, TimeMono a l → List.Chain' (· ≤ ·) (l.map Step.time) := by
  induction l with
  | nil => intro a _; simp
  | cons st rest ih =>
      intro a h
      rw [List.map_cons, List.chain'_cons']
      refine ⟨?_, ih h.2⟩
      intro y hy
      cases rest with
      | nil => simp at hy
      | cons st2 r2 =>
          simp only [List.map_cons, List.head?_cons, Option.mem_def,
            Option.some.injEq] at hy
          exact hy ▸ h.2.1

/-- The events of one loop iteration are stamped in non-decreasing
order starting from the incoming clock, and the clock returned by the
iteration is at least the last event's stamp. -/
theorem iterOut_timeMono (D : Durations) (c : Char) (right t left : ℕ)
    (best : ℤ) (seen : Char → Option ℕ) :
    TimeMono t (iterOut D c right t left best seen).evs ∧
      lastTime t (iterOut D c right t left best seen).evs ≤
        (iterOut D c right t left best seen).t := by
  unfold iterOut
  rcases dupCheck seen c left with _ | p <;> dsimp only <;> split <;>
    refine ⟨?_, ?_⟩ <;>
    simp [TimeMono, Step.time, lastTime] <;> omega

/-- All events emitted by the main loop are stamped no earlier than the
incoming clock, in non-decreasing order. -/
theorem traceGo_timeMono (D : Durations) :
    ∀ (cs : List Char) (right t left : ℕ) (best : ℤ)
      (seen : Char → Option ℕ),
      TimeMono t (traceGo D cs right t left best seen).1 := by
  intro cs
  induction cs with
  | nil => intro right t left best seen; trivial
  | cons c cs ih =>
      intro right t left best seen
      show TimeMono t ((iterOut D c right t left best seen).evs ++ _)
      refine timeMono_append (iterOut_timeMono D c right t left best seen).1
        (timeMono_weaken (iterOut_timeMono D c right t left best seen).2 ?_)
      exact ih _ _ _ _ _

/-- C3: for every input string and every duration table with positive
entries (in particular the default table and every table produced by
durationsForFps), the emitted event list has non-decreasing
timestamps. -/
theorem trace_time_monotone (s : List Char) (D : Durations)
    (fps tailSec : ℚ)
    (h1 : 1 ≤ D.moveRight) (h2 : 1 ≤ D.add) (h3 : 1 ≤ D.duplicate)
    (h4 : 1 ≤ D.moveLeftEach) (h5 : 1 ≤ D.updateBest) :
    List.Chain' (· ≤ ·)
      ((traceLongestSubstring s ⟨D, fps, tailSec⟩).steps.map Step.time) :=
  timeMono_chain (traceGo_timeMono D s 0 0 0 0 (fun _ => none))

/-- Witness for C3 on the default table and the string "aba". -/
theorem trace_time_monotone_witness :
    List.Chain' (· ≤ ·)
      ((traceLongestSubstring ['a', 'b', 'a']
          ⟨defaultDurations, 30, 1⟩).steps.map Step.time) :=
  trace_time_monotone ['a', 'b', 'a'] defaultDurations 30 1
    (by decide) (by decide) (by decide) (by decide) (by decide)

/-- Prefix chaining of the derived left pointer: folding the list left
to right from the given accumulator, the value never decreases at any
step. -/
def PrefMono : ℕ → List Step → Prop
  | _, [] => True
  | a, st :: rest => a ≤ leftF a st ∧ PrefMono (leftF a st) rest

theorem prefMono_append {l₁ l₂ : List Step} :
    ∀ {a : ℕ}, PrefMono a l₁ → PrefMono (l₁.foldl leftF a) l₂ →
      PrefMono a (l₁ ++ l₂) := by
  induction l₁ with
  | nil => intro a _ h₂; exact h₂
  | cons st rest ih => intro a h₁ h₂; exact ⟨h₁.1, ih h₁.2 h₂⟩

theorem prefMono_take_le {l : List Step} :
    ∀ {a : ℕ}, PrefMono a l → ∀ i : ℕ,
      (l.take i).foldl leftF a ≤ (l.take (i + 1)).foldl leftF a := by
  induction l with
  | nil => intro a _ i; simp
  | cons st rest ih =>
      intro a h i
      cases i with
      | zero => simpa using h.1
      | succ i => exact ih h.2 i

theorem prefMono_mono {l : List Step} {a : ℕ} (h : PrefMono a l)
    {i j : ℕ} (hij : i ≤ j) :
    (l.take i).foldl leftF a ≤ (l.take j).foldl leftF a :=
  monotone_nat_of_le_succ (prefMono_take_le h) hij

/-- The duplicate check only fires at a previous index at or past the
left pointer. -/
theorem dupCheck_le {seen : Char → Option ℕ} {c : Char} {left p : ℕ}
    (h : dupCheck seen c left = some p) : left ≤ p := by
  rcases hs : seen c with _ | q
  · simp [dupCheck, hs] at h
  · by_cases hq : left ≤ q
    · have hh : dupCheck seen c left = some q := by simp [dupCheck, hs, hq]
      rw [hh] at h
      cases h
      exact hq
    · have hh : dupCheck seen c left = none := by simp [dupCheck, hs, hq]
      rw [hh] at h
      cases h

/-- Within one iteration the derived left pointer never decreases, and
folding the iteration's events from the incoming left pointer lands on
the iteration's outgoing left pointer. -/
theorem iterOut_prefMono (D : Durations) (c : Char) (right t left : ℕ)
    (best : ℤ) (seen : Char → Option ℕ) :
    PrefMono left (iterOut D c right t left best seen).evs ∧
      (iterOut D c right t left best seen).evs.foldl leftF left =
        (iterOut D c right t left best seen).left := by
  unfold iterOut
  rcases hd : dupCheck seen c left with _ | p
  · dsimp only
    split <;> exact ⟨by simp [PrefMono, leftF], rfl⟩
  · have hp : left ≤ p := dupCheck_le hd
    dsimp only
    split <;>
      exact ⟨by simp [PrefMono, leftF]; omega, rfl⟩

/-- Across the whole run of the main loop the derived left pointer is
non-decreasing along the emitted event list. -/
theorem traceGo_prefMono (D : Durations) :
    ∀ (cs : List Char) (right t left : ℕ) (best : ℤ)
      (seen : Char → Option ℕ),
      PrefMono left (traceGo D cs right t left best seen).1 := by
  intro cs
  induction cs with
  | nil => intro right t left best seen; trivial
  | cons c cs ih =>
      intro right t left best seen
      show PrefMono left ((iterOut D c right t left best seen).evs ++ _)
      refine prefMono_append (iterOut_prefMono D c right t left best seen).1 ?_
      rw [(iterOut_prefMono D c right t left best seen).2]
      exact ih _ _ _ _ _

/-- The left component of the scene's full state fold agrees with the
left-pointer-only fold. -/
theorem applyStep_fold_left (l : List Step) :
    ∀ d : DerivedState, (l.foldl applyStep d).left = l.foldl leftF d.left := by
  induction l with
  | nil => intro d; rfl
  | cons st rest ih =>
      intro d
      show (rest.foldl applyStep (applyStep d st)).left =
        rest.foldl leftF (leftF d.left st)
      rw [ih (applyStep d st)]
      cases st <;> rfl

/-- A pointwise weaker takeWhile predicate selects a shorter or equal
leading run. -/
theorem takeWhile_length_mono {p q : Step → Bool}
    (h : ∀ st, p st = true → q st = true) (l : List Step) :
    (l.takeWhile p).length ≤ (l.takeWhile q).length := by
  induction l with
  | nil => simp
  | cons st rest ih =>
      by_cases hp : p st = true
      · rw [List.takeWhile_cons_of_pos hp,
          List.takeWhile_cons_of_pos (h st hp)]
        exact Nat.succ_le_succ ih
      · rw [List.takeWhile_cons_of_neg hp]
        exact Nat.zero_le _

/-- The projector's selected index is monotone in the frame number. -/
theorem stepIndexFor_mono (steps : List Step) {f1 f2 : ℕ} (h : f1 ≤ f2) :
    stepIndexFor steps f1 ≤ stepIndexFor steps f2 := by
  unfold stepIndexFor
  have := takeWhile_length_mono
    (p := fun st => decide (st.time ≤ f1))
    (q := fun st => decide (st.time ≤ f2))
    (fun st hst => by
      simp only [decide_eq_true_eq] at hst ⊢
      omega) steps
  omega

/-- The steps of a trace are exactly the steps the main loop emits from
the initial state. -/
theorem trace_steps_eq (s : List Char) (cfg : TraceConfig) :
    (traceLongestSubstring s cfg).steps =
      (traceGo cfg.durations s 0 0 0 0 (fun _ => none)).1 := rfl

/-- C6: the left pointer reconstructed by the scene's event fold is
non-decreasing in the frame number, whenever the projection is defined
at both frames. -/
theorem projectedLeft_mono (s : List Char) (f1 f2 : ℕ)
    (d1 d2 : DerivedState) (hf : f1 ≤ f2)
    (h1 : deriveState (traceLongestSubstring s defaultConfig).steps f1 =
      some d1)
    (h2 : deriveState (traceLongestSubstring s defaultConfig).steps f2 =
      some d2) :
    d1.left ≤ d2.left := by
  unfold deriveState at h1 h2
  by_cases c1 : stepIndexFor (traceLongestSubstring s defaultConfig).steps f1 <
      (traceLongestSubstring s defaultConfig).steps.length
  · by_cases c2 : stepIndexFor (traceLongestSubstring s defaultConfig).steps f2 <
        (traceLongestSubstring s defaultConfig).steps.length
    · rw [if_pos c1] at h1
      rw [if_pos c2] at h2
      have e1 := Option.some.inj h1
      have e2 := Option.some.inj h2
      rw [← e1, ← e2, applyStep_fold_left, applyStep_fold_left]
      have hpm : PrefMono 0 (traceLongestSubstring s defaultConfig).steps := by
        rw [trace_steps_eq]
        exact traceGo_prefMono defaultConfig.durations s 0 0 0 0 (fun _ => none)
      exact prefMono_mono hpm
        (Nat.succ_le_succ (stepIndexFor_mono _ hf))
    · rw [if_neg c2] at h2
      cases h2
  · rw [if_neg c1] at h1
    cases h1

/-- Witness for C6 on the string "ab" at frames 0 and 50. -/
theorem projectedLeft_mono_witness :
    (⟨0, 0, 0⟩ : DerivedState).left ≤ (⟨0, 1, 2⟩ : DerivedState).left :=
  projectedLeft_mono ['a', 'b'] 0 50 ⟨0, 0, 0⟩ ⟨0, 1, 2⟩
    (by decide) (by decide) (by decide)

/-- Every trace produced with the default configuration lasts at least
3 frames (in fact at least the 30-frame tail buffer). -/
theorem trace_duration_ge (s : List Char) :
    3 ≤ (traceLongestSubstring s defaultConfig).duration := by
  show 3 ≤ ((traceGo defaultConfig.durations s 0 0 0 0 (fun _ => none)).2 : ℤ) +
    max 1 (jsRound (defaultConfig.tailSeconds * defaultConfig.fps))
  have h : jsRound (defaultConfig.tailSeconds * defaultConfig.fps) = 30 := by
    norm_num [jsRound, defaultConfig]
  rw [h]
  omega

/-- The assembler's cursor fold in closed form: when every segment
lasts at least 3 frames, no start-frame ever clamps at 0, the cursor
after all segments is the starting cursor plus the durations minus one
3-frame overlap per segment, and it stays at least 3. -/
theorem layout_fold (durs : List ℤ) :
    ∀ c : ℤ, 3 ≤ c → (∀ d ∈ durs, 3 ≤ d) →
      durs.foldl cursorStep c = c + durs.sum - 3 * durs.length ∧
        3 ≤ durs.foldl cursorStep c := by
  induction durs with
  | nil =>
      intro c hc _
      simp
      omega
  | cons d ds ih =>
      intro c hc hd
      have hd3 : 3 ≤ d := hd d (by simp)
      have hstep : cursorStep c d = c - 3 + d := by
        unfold cursorStep
        omega
      rw [List.foldl_cons, hstep]
      have hrec := ih (c - 3 + d) (by omega)
        (fun x hx => hd x (List.mem_cons_of_mem d hx))
      refine ⟨?_, hrec.2⟩
      rw [hrec.1]
      simp [List.sum_cons, List.length_cons]
      push_cast
      ring

/-- C5: for every list of example strings the value of
computeExplainerDuration equals the assembled timeline's extent, i.e.
the outro segment's start frame plus its 120-frame duration, and both
equal the naive sum of intro, trace durations and outro minus 3 frames
of overlap per transition. -/
theorem explainer_duration_layout (examples : List (List Char)) :
    computeExplainerDuration examples = assembledTotal examples ∧
      computeExplainerDuration examples =
        120 + (examples.map
            (fun s => (traceLongestSubstring s defaultConfig).duration)).sum +
          120 -
          3 * (if 0 < examples.length then (examples.length : ℤ) + 1 else 1) := by
  refine ⟨?_, rfl⟩
  have hd : ∀ d ∈ examples.map
      (fun s => (traceLongestSubstring s defaultConfig).duration), 3 ≤ d := by
    intro d hdm
    obtain ⟨x, _, rfl⟩ := List.mem_map.1 hdm
    exact trace_duration_ge x
  have hfold := layout_fold (examples.map
    (fun s => (traceLongestSubstring s defaultConfig).duration)) 120
    (by norm_num) hd
  show _ = max 0 (List.foldl cursorStep 120 _ - 3) + 120
  rw [hfold.1]
  cases examples with
  | nil => simp [computeExplainerDuration]
  | cons e es =>
      have hlen : 0 < (e :: es).length := by simp
      show computeExplainerDuration (e :: es) =
        max 0 (120 + ((e :: es).map
            (fun s => (traceLongestSubstring s defaultConfig).duration)).sum -
          3 * ((e :: es).map
            (fun s => (traceLongestSubstring s defaultConfig).duration)).length -
          3) + 120
      unfold computeExplainerDuration
      rw [if_pos hlen]
      have h3 : (3:ℤ) ≤ 120 + ((e :: es).map
          (fun s => (traceLongestSubstring s defaultConfig).duration)).sum -
          3 * ((e :: es).map
            (fun s => (traceLongestSubstring s defaultConfig).duration)).length := by
        rw [← hfold.1]
        exact hfold.2
      rw [List.length_map] at *
      dsimp only
      omega

/-- C8: the trace of the empty sequence has no events and its duration
is the tail buffer alone, max(1, round(tailSeconds * fps)); with the
default one-second tail at 30 fps that is exactly 30 frames. -/
theorem trace_empty_input (D : Durations) (fps tailSec : ℚ) :
    (traceLongestSubstring [] ⟨D, fps, tailSec⟩).steps = [] ∧
      (traceLongestSubstring [] ⟨D, fps, tailSec⟩).duration =
        max 1 (jsRound (tailSec * fps)) ∧
      (traceLongestSubstring [] defaultConfig).duration = 30 := by
  refine ⟨rfl, ?_, ?_⟩
  · show ((0 : ℕ) : ℤ) + max 1 (jsRound (tailSec * fps)) = _
    simp
  · show ((0 : ℕ) : ℤ) +
      max 1 (jsRound (defaultConfig.tailSeconds * defaultConfig.fps)) = 30
    norm_num [jsRound, defaultConfig]

/-- The index of the last occurrence of `c` strictly before position
`k` in `s`: an occurrence with no later occurrence below `k`. -/
def LastOcc (s : List Char) (k : ℕ) (c : Char) (p : ℕ) : Prop :=
  s.get? p = some c ∧ p < k ∧ ∀ q, p < q → q < k → s.get? q ≠ some c

/-- The membership set of the set-based implementation holds exactly
the characters of the current window [left, k). -/
def WindowSet (s : List Char) (left k : ℕ) (set : Finset Char) : Prop :=
  ∀ x, x ∈ set ↔ ∃ i, left ≤ i ∧ i < k ∧ s.get? i = some x

/-- The characters of the current window [left, k) are pairwise
distinct. -/
def WindowDistinct (s : List Char) (left k : ℕ) : Prop :=
  ∀ i j, left ≤ i → i < j → j < k → s.get? i ≠ s.get? j

/-- Any occurrence strictly before `k` admits a last occurrence
strictly before `k`. -/
theorem exists_lastOcc (s : List Char) (c : Char) :
    ∀ k i, i < k → s.get? i = some c → ∃ p, LastOcc s k c p := by
  intro k
  induction k with
  | zero => intro i hi _; omega
  | succ k ih =>
      intro i hi hgi
      by_cases hk : s.get? k = some c
      · exact ⟨k, hk, Nat.lt_succ_self k, fun q hq1 hq2 => by omega⟩
      · have hik : i < k := by
          rcases Nat.lt_succ_iff_lt_or_eq.1 hi with h | h
          · exact h
          · exact absurd (h ▸ hgi) hk
        obtain ⟨p, hp1, hp2, hp3⟩ := ih i hik hgi
        refine ⟨p, hp1, Nat.lt_succ_of_lt hp2, fun q hq1 hq2 => ?_⟩
        rcases Nat.lt_succ_iff_lt_or_eq.1 hq2 with h | h
        · exact hp3 q hq1 h
        · exact h ▸ hk

/-- A character not in the membership set exits the while loop at once,
whatever the fuel. -/
theorem shrink_exit {s : List Char} {c : Char} {set : Finset Char}
    {left : ℕ} (h : c ∉ set) :
    ∀ fuel, shrink s c fuel set left = (set, left) := by
  intro fuel
  cases fuel with
  | zero => rfl
  | succ fuel => simp [shrink, h]

/-- The while loop of the set-based implementation, entered on the
duplicate `c` whose last in-window occurrence is `p`, stops with the
left pointer at `p + 1` and the membership set holding exactly the
characters of the shrunk window, provided the fuel covers the
`p + 1 - left` iterations. -/
theorem shrink_spec (s : List Char) (c : Char) (k p : ℕ)
    (hlast : LastOcc s k c p) (hk : k ≤ s.length) :
    ∀ fuel left set, left ≤ p → p + 1 - left ≤ fuel →
      WindowSet s left k set → WindowDistinct s left k →
      (shrink s c fuel set left).2 = p + 1 ∧
        WindowSet s (p + 1) k (shrink s c fuel set left).1 := by
  intro fuel
  induction fuel with
  | zero => intro left set hlp hfuel _ _; omega
  | succ fuel ih =>
      intro left set hlp hfuel hws hwd
      have hlk : left < s.length :=
        lt_of_le_of_lt hlp (lt_of_lt_of_le hlast.2.1 hk)
      have hcin : c ∈ set := (hws c).2 ⟨p, hlp, hlast.2.1, hlast.1⟩
      have hch : s.get? left = some (s.get ⟨left, hlk⟩) := List.get?_eq_get hlk
      have hstep : shrink s c (fuel + 1) set left =
          shrink s c fuel (set.erase (s.get ⟨left, hlk⟩)) (left + 1) := by
        rw [shrink, if_pos hcin, hch]
      have hws2 : WindowSet s (left + 1) k (set.erase (s.get ⟨left, hlk⟩)) := by
        intro x
        rw [Finset.mem_erase]
        constructor
        · rintro ⟨hxne, hxin⟩
          obtain ⟨i, hi1, hi2, hi3⟩ := (hws x).1 hxin
          refine ⟨i, ?_, hi2, hi3⟩
          rcases Nat.lt_or_ge left i with h | h
          · exact h
          · have : i = left := le_antisymm (le_trans h (le_refl left)) hi1
            rw [this] at hi3
            rw [hch] at hi3
            exact absurd (Option.some.inj hi3).symm hxne
        · rintro ⟨i, hi1, hi2, hi3⟩
          refine ⟨?_, (hws x).2 ⟨i, le_trans (Nat.le_succ left) hi1, hi2, hi3⟩⟩
          intro hxeq
          have : s.get? left ≠ s.get? i :=
            hwd left i (le_refl left) (lt_of_lt_of_le (Nat.lt_succ_self left) hi1) hi2
          rw [hch, hi3, hxeq] at this
          exact this rfl
      have hwd2 : WindowDistinct s (left + 1) k :=
        fun i j hi hij hj => hwd i j (le_trans (Nat.le_succ left) hi) hij hj
      rcases Nat.lt_or_ge left p with hlt | hge
      · have := ih (left + 1) (set.erase (s.get ⟨left, hlk⟩))
          hlt (by omega) hws2 hwd2
        rw [hstep]
        exact this
      · have hlp' : left = p := le_antisymm hlp hge
        subst hlp'
        have hnot : c ∉ set.erase (s.get ⟨left, hlk⟩) := by
          intro hmem
          obtain ⟨i, hi1, hi2, hi3⟩ := (hws2 c).1 hmem
          exact hlast.2.2 i hi1 hi2 hi3
        rw [hstep, shrink_exit hnot]
        exact ⟨rfl, hws2⟩

/-- A successful duplicate check returns exactly the lastSeen entry. -/
theorem dupCheck_some_seen {seen : Char → Option ℕ} {c : Char}
    {left p : ℕ} (h : dupCheck seen c left = some p) : seen c = some p := by
  rcases hs : seen c with _ | q
  · simp [dupCheck, hs] at h
  · by_cases hq : left ≤ q
    · have hh : dupCheck seen c left = some q := by simp [dupCheck, hs, hq]
      rw [hh] at h
      cases h
      rfl
    · have hh : dupCheck seen c left = none := by simp [dupCheck, hs, hq]
      rw [hh] at h
      cases h

/-- When the duplicate check fails, the current character does not
occur anywhere in the window [left, k). -/
theorem dupCheck_none_nowin {seen : Char → Option ℕ} {c : Char}
    {left : ℕ} (s : List Char) (k : ℕ)
    (hseen : ∀ x px, seen x = some px ↔ LastOcc s k x px)
    (hd : dupCheck seen c left = none) :
    ∀ i, left ≤ i → i < k → s.get? i ≠ some c := by
  intro i hi hik hgi
  rcases hs : seen c with _ | q
  · obtain ⟨p, hp⟩ := exists_lastOcc s c k i hik hgi
    have := (hseen c p).2 hp
    rw [hs] at this
    cases this
  · have hq := (hseen c q).1 hs
    by_cases hlq : left ≤ q
    · have hh : dupCheck seen c left = some q := by simp [dupCheck, hs, hlq]
      rw [hh] at hd
      cases hd
    · exact hq.2.2 i (by omega) hik hgi

/-- Recording the current character at index k in the lastSeen map
preserves the last-occurrence invariant, now up to k + 1. -/
theorem lastOcc_update (s : List Char) (k : ℕ) (c : Char)
    (hk : s.get? k = some c) (seen : Char → Option ℕ)
    (hseen : ∀ x px, seen x = some px ↔ LastOcc s k x px) :
    ∀ x px, (if x = c then some k else seen x) = some px ↔
      LastOcc s (k + 1) x px := by
  intro x px
  by_cases hx : x = c
  · subst hx
    rw [if_pos rfl]
    constructor
    · intro h
      cases h
      exact ⟨hk, Nat.lt_succ_self k, fun q hq1 hq2 => by omega⟩
    · intro hl
      have hpk : px = k := by
        by_contra hne
        have hpx : px < k := by
          have := hl.2.1
          omega
        exact hl.2.2 k hpx (Nat.lt_succ_self k) hk
      rw [hpk]
  · rw [if_neg hx]
    constructor
    · intro h
      have hl := (hseen x px).1 h
      refine ⟨hl.1, Nat.lt_succ_of_lt hl.2.1, fun q hq1 hq2 => ?_⟩
      rcases Nat.lt_succ_iff_lt_or_eq.1 hq2 with hlt | heq
      · exact hl.2.2 q hq1 hlt
      · subst heq
        rw [hk]
        intro hc
        exact hx (Option.some.inj hc).symm
    · intro hl
      apply (hseen x px).2
      have hpk : px < k := by
        rcases Nat.lt_succ_iff_lt_or_eq.1 hl.2.1 with hlt | heq
        · exact hlt
        · exfalso
          have hone := hl.1
          rw [heq, hk] at hone
          exact hx (Option.some.inj hone).symm
      exact ⟨hl.1, hpk, fun q hq1 hq2 => hl.2.2 q hq1 (Nat.lt_succ_of_lt hq2)⟩

/-- Inserting the current character extends the window-set invariant
from [left, k) to [left, k + 1). -/
theorem windowSet_insert (s : List Char) (k left : ℕ) (c : Char)
    (set : Finset Char) (hk : s.get? k = some c) (hlk : left ≤ k)
    (hws : WindowSet s left k set) :
    WindowSet s left (k + 1) (insert c set) := by
  intro x
  rw [Finset.mem_insert]
  constructor
  · rintro (rfl | hx)
    · exact ⟨k, hlk, Nat.lt_succ_self k, hk⟩
    · obtain ⟨i, h1, h2, h3⟩ := (hws x).1 hx
      exact ⟨i, h1, Nat.lt_succ_of_lt h2, h3⟩
  · rintro ⟨i, h1, h2, h3⟩
    rcases Nat.lt_succ_iff_lt_or_eq.1 h2 with hlt | heq
    · exact Or.inr ((hws x).2 ⟨i, h1, hlt, h3⟩)
    · subst heq
      rw [hk] at h3
      exact Or.inl (Option.some.inj h3).symm

/-- After a duplicate shrank the window to [p + 1, k), appending the
current character keeps the window duplicate-free up to k + 1, because
p was the last occurrence of that character before k. -/
theorem windowDistinct_dup (s : List Char) (k p : ℕ) (c : Char)
    (hk : s.get? k = some c) (hlast : LastOcc s k c p)
    (hwd : WindowDistinct s (p + 1) k) :
    WindowDistinct s (p + 1) (k + 1) := by
  intro i j hi hij hj
  rcases Nat.lt_succ_iff_lt_or_eq.1 hj with hlt | heq
  · exact hwd i j hi hij hlt
  · subst heq
    rw [hk]
    intro hcon
    exact hlast.2.2 i (by omega) (by omega) hcon

/-- When the current character does not occur in the window, appending
it keeps the window duplicate-free up to k + 1. -/
theorem windowDistinct_nodup (s : List Char) (k left : ℕ) (c : Char)
    (hk : s.get? k = some c)
    (hnowin : ∀ i, left ≤ i → i < k → s.get? i ≠ some c)
    (hwd : WindowDistinct s left k) :
    WindowDistinct s left (k + 1) := by
  intro i j hi hij hj
  rcases Nat.lt_succ_iff_lt_or_eq.1 hj with hlt | heq
  · exact hwd i j hi hij hlt
  · subst heq
    rw [hk]
    exact hnowin i hi hij

/-- The head of a non-trivial drop pins down the list element at that
index, the rest of the drop, and the length bound. -/
theorem drop_cons_facts {s cs' : List Char} {c : Char} {k : ℕ}
    (h : c :: cs' = s.drop k) :
    s.get? k = some c ∧ cs' = s.drop (k + 1) ∧ k < s.length := by
  have h1 : s.get? k = some c := by
    have hd := List.get?_drop s k 0
    rw [← h] at hd
    simpa using hd.symm
  have h3 : k < s.length := by
    by_contra hkl
    push_neg at hkl
    rw [List.drop_eq_nil_of_le hkl] at h
    cases h
  have h2 : cs' = s.drop (k + 1) := by
    have hdd : s.drop (k + 1) = (s.drop k).drop 1 := by
      rw [List.drop_drop]
    rw [hdd, ← h]
    rfl
  exact ⟨h1, h2, h3⟩

/-- Folding the best-length accumulator over one iteration's events
yields exactly the iteration's outgoing best, and that best is the max
of the incoming best and the new window length. -/
theorem iterOut_fold_best (D : Durations) (c : Char) (right t left : ℕ)
    (best : ℤ) (seen : Char → Option ℕ) :
    (iterOut D c right t left best seen).evs.foldl bestF best =
        (iterOut D c right t left best seen).best ∧
      (iterOut D c right t left best seen).best =
        max best ((right : ℤ) -
          (((iterOut D c right t left best seen).left : ℕ) : ℤ) + 1) := by
  rcases hd : dupCheck seen c left with _ | p
  · simp only [iterOut, hd]
    by_cases hb : best < (right : ℤ) - (left : ℤ) + 1
    · simp only [if_pos hb]
      refine ⟨?_, ?_⟩ <;> simp [bestF] <;> omega
    · simp only [if_neg hb]
      refine ⟨?_, ?_⟩ <;> simp [bestF] <;> omega
  · simp only [iterOut, hd]
    by_cases hb : best < (right : ℤ) - ((p + 1 : ℕ) : ℤ) + 1
    · simp only [if_pos hb]
      refine ⟨?_, ?_⟩ <;> simp [bestF] <;> omega
    · simp only [if_neg hb]
      refine ⟨?_, ?_⟩ <;> simp [bestF] <;> omega

/-- One iteration leaves the left pointer where the duplicate check
says: just past the duplicate's previous occurrence, or unchanged. -/
theorem iterOut_left (D : Durations) (c : Char) (right t left : ℕ)
    (best : ℤ) (seen : Char → Option ℕ) :
    (iterOut D c right t left best seen).left =
      match dupCheck seen c left with
      | some p => p + 1
      | none => left := by
  rcases hd : dupCheck seen c left with _ | p <;>
    simp [iterOut, hd, apply_ite IterOut.left]

/-- The loop invariant simulation: starting from any state in which
the lastSeen map records last occurrences below k, the membership set
holds exactly the window's characters, and the window is
duplicate-free, folding the best-length accumulator over the events
the trace loop emits agrees with the set-based loop of
lengthOfLongestSubstring. -/
theorem traceGo_lolsGo (s : List Char) (D : Durations) :
    ∀ (cs : List Char) (k t left : ℕ) (best : ℤ)
      (seen : Char → Option ℕ) (set : Finset Char),
      cs = s.drop k →
      left ≤ k →
      (∀ x px, seen x = some px ↔ LastOcc s k x px) →
      WindowSet s left k set →
      WindowDistinct s left k →
      (traceGo D cs k t left best seen).1.foldl bestF best =
        lolsGo s cs k set left best := by
  intro cs
  induction cs with
  | nil => intro k t left best seen set _ _ _ _ _; rfl
  | cons c cs' ih =>
      intro k t left best seen set hdrop hlk hseen hws hwd
      obtain ⟨hk, hdrop', hklen⟩ := drop_cons_facts hdrop
      have htrace : (traceGo D (c :: cs') k t left best seen).1 =
          (iterOut D c k t left best seen).evs ++
            (traceGo D cs' (k + 1) (iterOut D c k t left best seen).t
              (iterOut D c k t left best seen).left
              (iterOut D c k t left best seen).best
              (fun x => if x = c then some k else seen x)).1 := rfl
      have hlols : lolsGo s (c :: cs') k set left best =
          lolsGo s cs' (k + 1)
            (insert c (shrink s c s.length set left).1)
            (shrink s c s.length set left).2
            (max best ((k : ℤ) -
              ((shrink s c s.length set left).2 : ℤ) + 1)) := rfl
      rw [htrace, List.foldl_append, (iterOut_fold_best D c k t left best seen).1,
        hlols]
      have hseen' := lastOcc_update s k c hk seen hseen
      rcases hd : dupCheck seen c left with _ | p
      · -- no duplicate in the window
        have hnowin := dupCheck_none_nowin s k hseen hd
        have hnot : c ∉ set := fun hmem => by
          obtain ⟨i, h1, h2, h3⟩ := (hws c).1 hmem
          exact hnowin i h1 h2 h3
        have hleft : (iterOut D c k t left best seen).left = left := by
          rw [iterOut_left, hd]
        have hbest := (iterOut_fold_best D c k t left best seen).2
        rw [hleft] at hbest
        rw [shrink_exit hnot s.length, hleft, hbest]
        exact ih (k + 1) _ left _ _ (insert c set) hdrop'
          (le_trans hlk (Nat.le_succ k)) hseen'
          (windowSet_insert s k left c set hk hlk hws)
          (windowDistinct_nodup s k left c hk hnowin hwd)
      · -- duplicate at previous index p
        have hsc : seen c = some p := dupCheck_some_seen hd
        have hlast : LastOcc s k c p := (hseen c p).1 hsc
        have hple : left ≤ p := dupCheck_le hd
        have hpk : p < k := hlast.2.1
        have hsp := shrink_spec s c k p hlast (le_of_lt hklen) s.length
          left set hple (by omega) hws hwd
        have hleft : (iterOut D c k t left best seen).left = p + 1 := by
          rw [iterOut_left, hd]
        have hbest := (iterOut_fold_best D c k t left best seen).2
        rw [hleft] at hbest
        rw [hsp.1, hleft, hbest]
        exact ih (k + 1) _ (p + 1) _ _ (insert c (shrink s c s.length set left).1)
          hdrop' (by omega) hseen'
          (windowSet_insert s k (p + 1) c _ hk hpk hsp.2)
          (windowDistinct_dup s k p c hk hlast
            (fun i j hi hij hj => hwd i j (by omega) hij hj))

/-- C2: for every input string (and any configuration), the best
length reconstructed from the trace -- the stop - start + 1 extent of
the last updateBest event, or 0 when there is none -- equals the
result of the direct set-based sliding-window implementation
lengthOfLongestSubstring. -/
theorem trace_best_eq_direct (s : List Char) (cfg : TraceConfig) :
    foldBest (traceLongestSubstring s cfg).steps =
      lengthOfLongestSubstring s := by
  unfold foldBest lengthOfLongestSubstring
  rw [trace_steps_eq]
  refine traceGo_lolsGo s cfg.durations s 0 0 0 0 (fun _ => none) ∅
    (by simp) (le_refl 0) ?_ ?_ ?_
  · intro x px
    constructor
    · intro h
      cases h
    · intro hl
      exact absurd hl.2.1 (Nat.not_lt_zero px)
  · intro x
    simp only [Finset.not_mem_empty, false_iff]
    rintro ⟨i, _, hi2, _⟩
    exact Nat.not_lt_zero i hi2
  · intro i j _ _ hj
    exact absurd hj (Nat.not_lt_zero j)

end SlidingWindow
